import Mathlib

/-!
# Verification of the case-conversion utilities

Shallow embedding of the repository's string case-conversion functions
(`toCamelCase` and `toDotCase` from `refined_prompt.js`, `toKebabCase`
from the same file, and the second `toCamelCase` from the unnamed module)
together with proofs of the specified properties.

Strings are modelled as `List Char`.  Case mapping is ASCII-only, matching
the spec's stated non-goal of locale-aware Unicode folding: the regexes in
the source (`[^a-zA-Z0-9]`, `[a-z]`, `[A-Z]`, `[\s_]`) are ASCII classes,
and `toLowerCase`/`toUpperCase` are modelled on the ASCII range.  The
regex character ranges are expressed through code points (`'a'` = 97,
`'z'` = 122, `'A'` = 65, `'Z'` = 90, `'0'` = 48, `'9'` = 57), which is
what the ranges denote.  JavaScript values that can be passed to the
functions are modelled by `JSValue`; thrown errors by `JSError` (error
class plus message).
-/

/-- ASCII lowercase letter, the regex class `[a-z]` (code points 97-122). -/
def isLowerAlpha (c : Char) : Bool := decide (97 ≤ c.toNat) && decide (c.toNat ≤ 122)

/-- ASCII uppercase letter, the regex class `[A-Z]` (code points 65-90). -/
def isUpperAlpha (c : Char) : Bool := decide (65 ≤ c.toNat) && decide (c.toNat ≤ 90)

/-- ASCII decimal digit, the regex class `[0-9]` (code points 48-57). -/
def isDigitChar (c : Char) : Bool := decide (48 ≤ c.toNat) && decide (c.toNat ≤ 57)

/-- ASCII alphanumeric, the regex class `[a-zA-Z0-9]`. -/
def isAlnum (c : Char) : Bool := isLowerAlpha c || isUpperAlpha c || isDigitChar c

/-- Lowercase ASCII alphanumeric, the class `[a-z0-9]` of the spec's
output-shape regexes. -/
def isLowerAlnum (c : Char) : Bool := isLowerAlpha c || isDigitChar c

/-- Whitespace as matched by the regex class `\s` and removed by
`String.prototype.trim`, restricted to ASCII. -/
def isWs (c : Char) : Bool :=
  c = ' ' || c = '\t' || c = '\n' || c = '\r' || c = '\x0b' || c = '\x0c'

/-- The regex class `[\s_]` used by `toKebabCase`. -/
def isWsU (c : Char) : Bool := isWs c || c = '_'

/-- ASCII `toLowerCase` on one character. -/
def lowerChar (c : Char) : Char :=
  if isUpperAlpha c then Char.ofNat (c.toNat + 32) else c

/-- ASCII `toUpperCase` on one character. -/
def upperChar (c : Char) : Char :=
  if isLowerAlpha c then Char.ofNat (c.toNat - 32) else c

/-- `String.prototype.toLowerCase`, ASCII fragment. -/
def lowerStr (l : List Char) : List Char := l.map lowerChar

/-- Remove the trailing run of characters satisfying `p`
(the suffix half of `trim`, and of the regex `-+$`). -/
def rstrip (p : Char → Bool) : List Char → List Char
  | [] => []
  | c :: cs =>
    match rstrip p cs with
    | [] => if p c then [] else [c]
    | r => c :: r

/-- `String.prototype.trim` (ASCII whitespace). -/
def jsTrim (l : List Char) : List Char := rstrip isWs (l.dropWhile isWs)

/-- `str.split(/P+/)` for a one-character-class regex `P`: split on maximal
runs of characters satisfying `p`.  Mirrors JavaScript semantics: a leading
run yields a leading empty piece, a trailing run a trailing empty piece,
and `""` splits to `[""]`.  The flag records whether the previous character
belonged to a separator run (whose piece has already been emitted); `acc`
is the current piece, reversed. -/
def jsSplitGo (p : Char → Bool) : Bool → List Char → List Char → List (List Char)
  | _, [], acc => [acc.reverse]
  | inRun, c :: cs, acc =>
    if p c then
      if inRun then jsSplitGo p true cs []
      else acc.reverse :: jsSplitGo p true cs []
    else jsSplitGo p false cs (c :: acc)

/-- `str.split(/P+/)`. -/
def jsSplit (p : Char → Bool) (l : List Char) : List (List Char) :=
  jsSplitGo p false l []

/-- A JavaScript value passed to one of the exported functions. -/
inductive JSValue where
  | str : List Char → JSValue
  | num : Int → JSValue
  | bool : Bool → JSValue
  | null : JSValue
  | undefined : JSValue
  | object : JSValue
  deriving DecidableEq

/-- The class of a thrown error: `TypeError` or plain `Error`. -/
inductive ErrClass where
  | typeError : ErrClass
  | error : ErrClass
  deriving DecidableEq

/-- A thrown JavaScript error: class and message. -/
structure JSError where
  cls : ErrClass
  msg : String
  deriving DecidableEq

deriving instance DecidableEq for Except

/-- The spec's error taxonomy (§7). -/
inductive ErrKind where
  | typeKind : ErrKind
  | emptyInputKind : ErrKind
  | leadingDigitKind : ErrKind
  | noWordCharactersKind : ErrKind
  | otherKind : ErrKind
  deriving DecidableEq

/-- Classify an implementation error into the spec's taxonomy, by the
message each validation site throws. -/
def kindOf (e : JSError) : ErrKind :=
  if e.msg = "Input must be a string" then .typeKind
  else if e.msg = "Input must be a non-null string" then .typeKind
  else if e.msg = "Input string cannot be empty" then .emptyInputKind
  else if e.msg = "Input cannot be empty or whitespace only" then .emptyInputKind
  else if e.msg = "Input string must contain at least one alphanumeric character" then
    .noWordCharactersKind
  else .otherKind

/-- `word.charAt(0).toUpperCase() + word.slice(1).toLowerCase()`:
`charAt(0)` of `""` is `""` and `slice(1)` of `""` is `""`. -/
def capWord : List Char → List Char
  | [] => []
  | c :: cs => upperChar c :: lowerStr cs

/-- The word list computed by `toCamelCase`/`toDotCase` in
`refined_prompt.js`:
`str.trim().split(/[^a-zA-Z0-9]+/).filter(word => word.length > 0)`. -/
def wordsB (l : List Char) : List (List Char) :=
  (jsSplit (fun c => !isAlnum c) (jsTrim l)).filter (fun w => !w.isEmpty)

/-- `toCamelCase` from `refined_prompt.js` (lines 54-83). -/
def toCamelCase (v : JSValue) : Except JSError (List Char) :=
  match v with
  | .str s =>
    if (jsTrim s).length = 0 then
      .error ⟨.error, "Input string cannot be empty"⟩
    else
      match wordsB s with
      | [] => .error ⟨.error, "Input string must contain at least one alphanumeric character"⟩
      | w :: ws => .ok ((lowerStr w :: ws.map capWord).flatten)
  | _ => .error ⟨.typeError, "Input must be a string"⟩

/-- `toDotCase` from `refined_prompt.js` (lines 91-113). -/
def toDotCase (v : JSValue) : Except JSError (List Char) :=
  match v with
  | .str s =>
    if (jsTrim s).length = 0 then
      .error ⟨.error, "Input string cannot be empty"⟩
    else
      match wordsB s with
      | [] => .error ⟨.error, "Input string must contain at least one alphanumeric character"⟩
      | ws => .ok (List.intercalate ['.'] (ws.map lowerStr))
  | _ => .error ⟨.typeError, "Input must be a string"⟩

/-- The global replace `([a-z])([A-Z])` → `$1-$2`: insert a hyphen between
a lowercase letter and an immediately following uppercase letter, scanning
left to right without overlap. -/
def boundaryIns : List Char → List Char
  | [] => []
  | [c] => [c]
  | a :: b :: rest =>
    if isLowerAlpha a && isUpperAlpha b then a :: '-' :: b :: boundaryIns rest
    else a :: boundaryIns (b :: rest)

/-- The global replace of each maximal run of characters satisfying `p` by
the single character `rep` (the `[\s_]+` and `-+` global replaces, each
with replacement `'-'`).  The flag records whether the previous character
was part of a run. -/
def replRuns (p : Char → Bool) (rep : Char) : Bool → List Char → List Char
  | _, [] => []
  | inRun, c :: cs =>
    if p c then
      if inRun then replRuns p rep true cs else rep :: replRuns p rep true cs
    else c :: replRuns p rep false cs

/-- The replace `^-+|-+$` → `""`: strip leading and trailing hyphen runs. -/
def stripEdgeHyphens (l : List Char) : List Char :=
  rstrip (fun c => c = '-') (l.dropWhile (fun c => c = '-'))

/-- The substitution pipeline of `toKebabCase` after validation. -/
def kebabPipeline (s : List Char) : List Char :=
  stripEdgeHyphens
    (replRuns (fun c => c = '-') '-' false
      (replRuns isWsU '-' false
        (boundaryIns (lowerStr (jsTrim s)))))

/-- `toKebabCase` from `refined_prompt.js` (lines 127-153).  The
null/undefined arms come first, mirroring the source's check order;
all three validation failures throw `TypeError`. -/
def toKebabCase (v : JSValue) : Except JSError (List Char) :=
  match v with
  | .null => .error ⟨.typeError, "Input must be a non-null string"⟩
  | .undefined => .error ⟨.typeError, "Input must be a non-null string"⟩
  | .str s =>
    if (jsTrim s).length = 0 then
      .error ⟨.typeError, "Input cannot be empty or whitespace only"⟩
    else
      .ok (kebabPipeline s)
  | _ => .error ⟨.typeError, "Input must be a string"⟩

/-- The same function with the camelCase-boundary pass removed
(claim about that pass being a no-op). -/
def toKebabCaseNoBoundary (v : JSValue) : Except JSError (List Char) :=
  match v with
  | .null => .error ⟨.typeError, "Input must be a non-null string"⟩
  | .undefined => .error ⟨.typeError, "Input must be a non-null string"⟩
  | .str s =>
    if (jsTrim s).length = 0 then
      .error ⟨.typeError, "Input cannot be empty or whitespace only"⟩
    else
      .ok (stripEdgeHyphens
        (replRuns (fun c => c = '-') '-' false
          (replRuns isWsU '-' false (lowerStr (jsTrim s)))))
  | _ => .error ⟨.typeError, "Input must be a string"⟩

/-- The second `toCamelCase` implementation (`src/unnamed/part_000`):
no validation, splits only on `[\s\-_]+`, keeps empty pieces. -/
def toCamelCase2 (s : List Char) : List Char :=
  match jsSplit (fun c => isWs c || c = '-' || c = '_') (jsTrim s) with
  | [] => []
  | w :: ws => (lowerStr w :: ws.map capWord).flatten

/-- Rendering rule of spec §4.2, stated from the spec's words: the first
token lowercased entirely; every subsequent token rendered as (first
character uppercased) + (remaining characters lowercased); all tokens
concatenated with no separator. -/
def camelSpecRender : List (List Char) → List Char
  | [] => []
  | w :: ws =>
    w.map lowerChar ++
      (ws.map (fun t =>
        match t with
        | [] => []
        | c :: cs => upperChar c :: cs.map lowerChar)).flatten

/-- Rendering rule of spec §4.3, stated from the spec's words: every token
lowercased entirely, joined with a literal `.` separator. -/
def dotSpecRender (ws : List (List Char)) : List Char :=
  List.intercalate ['.'] (ws.map (fun w => w.map lowerChar))

/-- Matcher for the spec's output-shape regex `[a-z0-9]+(-[a-z0-9]+)*`
anchored on both sides.  The flag is `true` while a token character is
required (at the start and right after a separator). -/
def shapeAux (sep : Char) : Bool → List Char → Bool
  | needTok, [] => !needTok
  | needTok, c :: cs =>
    if isLowerAlnum c then shapeAux sep false cs
    else if c = sep && !needTok then shapeAux sep true cs
    else false

/-- The spec's kebab-case output-shape regex `^[a-z0-9]+(-[a-z0-9]+)*$`. -/
def matchesKebab (l : List Char) : Bool := shapeAux '-' true l

/-- Whether the list contains two adjacent hyphens. -/
def hasDD : List Char → Bool
  | a :: b :: t => (a = '-' && b = '-') || hasDD (b :: t)
  | _ => false

/-! ## Character-level lemmas -/

theorem isLowerAlpha_iff {c : Char} : isLowerAlpha c = true ↔ 97 ≤ c.toNat ∧ c.toNat ≤ 122 := by
  simp [isLowerAlpha]

theorem isUpperAlpha_iff {c : Char} : isUpperAlpha c = true ↔ 65 ≤ c.toNat ∧ c.toNat ≤ 90 := by
  simp [isUpperAlpha]

theorem isDigitChar_iff {c : Char} : isDigitChar c = true ↔ 48 ≤ c.toNat ∧ c.toNat ≤ 57 := by
  simp [isDigitChar]

theorem lowerChar_eq_self {c : Char} (h : isUpperAlpha c = false) : lowerChar c = c := by
  simp [lowerChar, h]

theorem lowerChar_upper_enum :
    ∀ n ∈ Finset.Icc 65 90,
      isUpperAlpha (lowerChar (Char.ofNat n)) = false ∧
        isLowerAlpha (lowerChar (Char.ofNat n)) = true := by decide

theorem isUpperAlpha_lowerChar (c : Char) : isUpperAlpha (lowerChar c) = false := by
  by_cases h : isUpperAlpha c = true
  · have hb := isUpperAlpha_iff.mp h
    have he := lowerChar_upper_enum c.toNat (Finset.mem_Icc.mpr hb)
    rw [Char.ofNat_toNat] at he
    exact he.1
  · rw [lowerChar_eq_self (by simpa using h)]
    simpa using h

theorem isLowerAlpha_not_upper {c : Char} (h : isLowerAlpha c = true) :
    isUpperAlpha c = false := by
  have hb := isLowerAlpha_iff.mp h
  simp only [isUpperAlpha, Bool.and_eq_false_iff, decide_eq_false_iff_not]
  omega

theorem isDigitChar_not_upper {c : Char} (h : isDigitChar c = true) :
    isUpperAlpha c = false := by
  have hb := isDigitChar_iff.mp h
  simp only [isUpperAlpha, Bool.and_eq_false_iff, decide_eq_false_iff_not]
  omega

theorem isLowerAlnum_not_upper {c : Char} (h : isLowerAlnum c = true) :
    isUpperAlpha c = false := by
  rcases Bool.or_eq_true_iff.mp (by simpa [isLowerAlnum] using h) with h1 | h1
  · exact isLowerAlpha_not_upper h1
  · exact isDigitChar_not_upper h1

theorem lowerChar_eq_self_of_lowerAlnum {c : Char} (h : isLowerAlnum c = true) :
    lowerChar c = c :=
  lowerChar_eq_self (isLowerAlnum_not_upper h)

theorem isLowerAlnum_lowerChar {c : Char} (h : isAlnum c = true) :
    isLowerAlnum (lowerChar c) = true := by
  have h3 : isLowerAlpha c = true ∨ isUpperAlpha c = true ∨ isDigitChar c = true := by
    simpa [isAlnum, Bool.or_eq_true_iff, or_assoc] using h
  rcases h3 with h1 | h1 | h1
  · rw [lowerChar_eq_self (isLowerAlpha_not_upper h1)]
    simp [isLowerAlnum, h1]
  · have hb := isUpperAlpha_iff.mp h1
    have he := lowerChar_upper_enum c.toNat (Finset.mem_Icc.mpr hb)
    rw [Char.ofNat_toNat] at he
    simp [isLowerAlnum, he.2]
  · rw [lowerChar_eq_self (isDigitChar_not_upper h1)]
    simp [isLowerAlnum, h1]

theorem isAlnum_lowerChar {c : Char} (h : isAlnum c = true) :
    isAlnum (lowerChar c) = true := by
  have h2 := isLowerAlnum_lowerChar h
  rcases Bool.or_eq_true_iff.mp (by simpa [isLowerAlnum] using h2) with h1 | h1 <;>
    simp [isAlnum, h1]

theorem isWsU_not_upper {c : Char} (h : isWsU c = true) : isUpperAlpha c = false := by
  have h2 : c = ' ' ∨ c = '\t' ∨ c = '\n' ∨ c = '\r' ∨ c = '\x0b' ∨ c = '\x0c' ∨ c = '_' := by
    simpa [isWsU, isWs, or_assoc] using h
  rcases h2 with rfl | rfl | rfl | rfl | rfl | rfl | rfl <;> decide

theorem isWs_not_upper {c : Char} (h : isWs c = true) : isUpperAlpha c = false :=
  isWsU_not_upper (by simp [isWsU, h])

/-! ## List-level lemmas about the string primitives -/

theorem lowerStr_no_upper {l : List Char} : ∀ c ∈ lowerStr l, isUpperAlpha c = false := by
  intro c hc
  rcases List.mem_map.mp hc with ⟨d, _, rfl⟩
  exact isUpperAlpha_lowerChar d

theorem rstrip_cons (p : Char → Bool) (c : Char) (cs : List Char) :
    rstrip p (c :: cs) =
      match rstrip p cs with
      | [] => if p c then [] else [c]
      | r => c :: r := rfl

theorem rstrip_eq_self {p : Char → Bool} {l : List Char} (h : ∀ c ∈ l, p c = false) :
    rstrip p l = l := by
  induction l with
  | nil => rfl
  | cons c cs ih =>
    have hr : rstrip p cs = cs := ih fun d hd => h d (List.mem_cons_of_mem c hd)
    have hc : p c = false := h c (List.mem_cons_self c cs)
    rw [rstrip_cons, hr]
    cases cs with
    | nil => simp [hc]
    | cons d t => simp

theorem rstrip_append {p : Char → Bool} (l : List Char) :
    ∃ t, rstrip p l ++ t = l := by
  induction l with
  | nil => exact ⟨[], rfl⟩
  | cons c cs ih =>
    rcases ih with ⟨t, ht⟩
    rw [rstrip_cons]
    cases hr : rstrip p cs with
    | nil =>
      by_cases hc : p c = true
      · exact ⟨c :: cs, by simp [hc]⟩
      · have hc' : p c = false := by simpa using hc
        exact ⟨cs, by simp [hc']⟩
    | cons w ws =>
      refine ⟨t, ?_⟩
      rw [hr] at ht
      simpa using ht

theorem mem_rstrip {p : Char → Bool} {l : List Char} {c : Char} (h : c ∈ rstrip p l) :
    c ∈ l := by
  rcases rstrip_append (p := p) l with ⟨t, ht⟩
  rw [← ht]
  exact List.mem_append_left t h

theorem rstrip_getLast {p : Char → Bool} {l : List Char} {c : Char}
    (h : (rstrip p l).getLast? = some c) : p c = false := by
  induction l with
  | nil => simp [rstrip] at h
  | cons d cs ih =>
    rw [rstrip_cons] at h
    cases hr : rstrip p cs with
    | nil =>
      rw [hr] at h
      by_cases hd : p d = true
      · simp [hd] at h
      · have hd' : p d = false := by simpa using hd
        simp [hd'] at h
        subst h
        exact hd'
    | cons w ws =>
      rw [hr] at h
      rw [List.getLast?_cons_cons] at h
      exact ih (hr ▸ h)

theorem mem_jsTrim {l : List Char} {c : Char} (h : c ∈ jsTrim l) : c ∈ l := by
  have h2 : c ∈ l.dropWhile isWs := mem_rstrip h
  exact (List.dropWhile_suffix isWs).subset h2

theorem jsTrim_eq_self {l : List Char} (h : ∀ c ∈ l, isWs c = false) : jsTrim l = l := by
  unfold jsTrim
  rw [List.dropWhile_eq_self_iff.mpr ?_, rstrip_eq_self h]
  intro hl
  have h2 := h _ (List.get_mem l 0 hl)
  simpa using h2

theorem jsTrim_head {l : List Char} {c : Char} (h : (jsTrim l).head? = some c) :
    isWs c = false := by
  unfold jsTrim at h
  rcases rstrip_append (p := isWs) (l.dropWhile isWs) with ⟨t, ht⟩
  have h2 : (l.dropWhile isWs).head? = some c := by
    rw [← ht, List.head?_append, h]
    rfl
  have h3 := List.head?_dropWhile_not isWs l
  rw [h2] at h3
  simpa using h3

theorem jsTrim_getLast {l : List Char} {c : Char} (h : (jsTrim l).getLast? = some c) :
    isWs c = false := rstrip_getLast h

/-! ## Lemmas about `jsSplit` -/

theorem jsSplitGo_sep {p : Char → Bool} {c : Char} (l acc : List Char) (h : p c = true) :
    jsSplitGo p false (c :: l) acc = acc.reverse :: jsSplitGo p true l [] := by
  simp [jsSplitGo, h]

theorem jsSplitGo_sep_inRun {p : Char → Bool} {c : Char} (l acc : List Char) (h : p c = true) :
    jsSplitGo p true (c :: l) acc = jsSplitGo p true l [] := by
  simp [jsSplitGo, h]

theorem jsSplitGo_tok {p : Char → Bool} {c : Char} (b : Bool) (l acc : List Char)
    (h : p c = false) :
    jsSplitGo p b (c :: l) acc = jsSplitGo p false l (c :: acc) := by
  cases b <;> simp [jsSplitGo, h]

theorem jsSplitGo_append_tok {p : Char → Bool} :
    ∀ (w : List Char), w ≠ [] → (∀ c ∈ w, p c = false) →
      ∀ (b : Bool) (l acc : List Char),
        jsSplitGo p b (w ++ l) acc = jsSplitGo p false l (w.reverse ++ acc) := by
  intro w
  induction w with
  | nil => intro h; exact absurd rfl h
  | cons c cs ih =>
    intro _ h b l acc
    rw [List.cons_append, jsSplitGo_tok b _ _ (h c (List.mem_cons_self c _))]
    cases cs with
    | nil => simp
    | cons d t =>
      rw [ih (by simp) (fun e he => h e (List.mem_cons_of_mem c he)) false l (c :: acc)]
      simp

theorem mem_jsSplitGo_not_sep {p : Char → Bool} :
    ∀ (l : List Char) (b : Bool) (acc : List Char),
      (∀ c ∈ acc, p c = false) →
      ∀ w ∈ jsSplitGo p b l acc, ∀ c ∈ w, p c = false := by
  intro l
  induction l with
  | nil =>
    intro b acc hacc w hw c hc
    simp [jsSplitGo] at hw
    subst hw
    exact hacc c (by simpa using hc)
  | cons d t ih =>
    intro b acc hacc w hw c hc
    by_cases hd : p d = true
    · cases b with
      | true =>
        rw [jsSplitGo_sep_inRun t acc hd] at hw
        exact ih true [] (by simp) w hw c hc
      | false =>
        rw [jsSplitGo_sep t acc hd] at hw
        rcases List.mem_cons.mp hw with rfl | hw2
        · exact hacc c (by simpa using hc)
        · exact ih true [] (by simp) w hw2 c hc
    · have hd' : p d = false := by simpa using hd
      rw [jsSplitGo_tok b t acc hd'] at hw
      refine ih false (d :: acc) ?_ w hw c hc
      intro e he
      rcases List.mem_cons.mp he with rfl | he2
      · exact hd'
      · exact hacc e he2

theorem mem_jsSplit_not_sep {p : Char → Bool} {l : List Char} :
    ∀ w ∈ jsSplit p l, ∀ c ∈ w, p c = false :=
  mem_jsSplitGo_not_sep l false [] (by simp)

theorem intercalate_pair {α : Type} (s : List α) (a : List α) (b : List α) (t : List (List α)) :
    List.intercalate s (a :: b :: t) = a ++ s ++ List.intercalate s (b :: t) := by
  simp [List.intercalate, List.intersperse]

theorem intercalate_single {α : Type} (s : List α) (a : List α) :
    List.intercalate s [a] = a := by
  simp [List.intercalate, List.intersperse]

theorem jsSplitGo_intercalate {p : Char → Bool} {sep : Char} (hsep : p sep = true) :
    ∀ (ws : List (List Char)) (w acc : List Char), w ≠ [] →
      (∀ c ∈ w, p c = false) →
      (∀ w' ∈ ws, w' ≠ [] ∧ ∀ c ∈ w', p c = false) →
      jsSplitGo p false (List.intercalate [sep] (w :: ws)) acc =
        (acc.reverse ++ w) :: ws := by
  intro ws
  induction ws with
  | nil =>
    intro w acc hwne hw _
    rw [intercalate_single, ← List.append_nil w,
      jsSplitGo_append_tok w hwne hw false [] acc]
    simp [jsSplitGo]
  | cons w2 ws2 ih =>
    intro w acc hwne hw hws
    rw [intercalate_pair]
    rcases hws w2 (List.mem_cons_self w2 ws2) with ⟨hne2, htok2⟩
    have hws2 : ∀ w' ∈ ws2, w' ≠ [] ∧ ∀ c ∈ w', p c = false :=
      fun w' hw' => hws w' (List.mem_cons_of_mem w2 hw')
    rw [List.append_assoc, jsSplitGo_append_tok w hwne hw false _ acc,
      List.singleton_append, jsSplitGo_sep _ _ hsep]
    rcases List.exists_cons_of_ne_nil hne2 with ⟨c, cs, rfl⟩
    have hc : p c = false := htok2 c (by simp)
    have step2 :
        jsSplitGo p true (List.intercalate [sep] ((c :: cs) :: ws2)) [] =
          jsSplitGo p false (List.intercalate [sep] ((c :: cs) :: ws2)) [] := by
      cases ws2 with
      | nil =>
        rw [intercalate_single, jsSplitGo_tok true _ _ hc, jsSplitGo_tok false _ _ hc]
      | cons w3 ws3 =>
        rw [intercalate_pair, List.cons_append, List.cons_append,
          jsSplitGo_tok true _ _ hc, jsSplitGo_tok false _ _ hc]
    rw [step2, ih (c :: cs) [] (by simp) htok2 hws2]
    simp

theorem jsSplit_intercalate {p : Char → Bool} {sep : Char} (hsep : p sep = true)
    (ws : List (List Char)) (hne : ws ≠ [])
    (htok : ∀ w ∈ ws, w ≠ [] ∧ ∀ c ∈ w, p c = false) :
    jsSplit p (List.intercalate [sep] ws) = ws := by
  cases ws with
  | nil => exact absurd rfl hne
  | cons w ws2 =>
    unfold jsSplit
    rw [jsSplitGo_intercalate hsep ws2 w [] (htok w (List.mem_cons_self w ws2)).1
      (htok w (List.mem_cons_self w ws2)).2
      (fun w' hw' => htok w' (List.mem_cons_of_mem w hw'))]
    simp

/-! ## Facts about the tokenizer output and result inversion -/

theorem toCamelCase_str (s : List Char) :
    toCamelCase (.str s) =
      if (jsTrim s).length = 0 then
        .error ⟨.error, "Input string cannot be empty"⟩
      else
        match wordsB s with
        | [] => .error ⟨.error, "Input string must contain at least one alphanumeric character"⟩
        | w :: ws => .ok ((lowerStr w :: ws.map capWord).flatten) := rfl

theorem toDotCase_str (s : List Char) :
    toDotCase (.str s) =
      if (jsTrim s).length = 0 then
        .error ⟨.error, "Input string cannot be empty"⟩
      else
        match wordsB s with
        | [] => .error ⟨.error, "Input string must contain at least one alphanumeric character"⟩
        | ws => .ok (List.intercalate ['.'] (ws.map lowerStr)) := rfl

theorem toKebabCase_str (s : List Char) :
    toKebabCase (.str s) =
      if (jsTrim s).length = 0 then
        .error ⟨.typeError, "Input cannot be empty or whitespace only"⟩
      else
        .ok (kebabPipeline s) := rfl

theorem toKebabCaseNoBoundary_str (s : List Char) :
    toKebabCaseNoBoundary (.str s) =
      if (jsTrim s).length = 0 then
        .error ⟨.typeError, "Input cannot be empty or whitespace only"⟩
      else
        .ok (stripEdgeHyphens
          (replRuns (fun c => c = '-') '-' false
            (replRuns isWsU '-' false (lowerStr (jsTrim s))))) := rfl

theorem wordsB_facts {l : List Char} :
    ∀ w ∈ wordsB l, w ≠ [] ∧ ∀ c ∈ w, isAlnum c = true := by
  intro w hw
  rcases List.mem_filter.mp hw with ⟨hmem, hne⟩
  constructor
  · intro h
    subst h
    simp at hne
  · intro c hc
    have h2 := mem_jsSplit_not_sep w hmem c hc
    simpa using h2

theorem toCamelCase_ok_inv {s out : List Char} (h : toCamelCase (.str s) = .ok out) :
    ∃ w ws, wordsB s = w :: ws ∧ out = (lowerStr w :: ws.map capWord).flatten := by
  rw [toCamelCase_str] at h
  by_cases h0 : (jsTrim s).length = 0
  · rw [if_pos h0] at h
    simp at h
  · rw [if_neg h0] at h
    cases hw : wordsB s with
    | nil =>
      rw [hw] at h
      simp at h
    | cons w ws =>
      rw [hw] at h
      simp only [Except.ok.injEq] at h
      exact ⟨w, ws, rfl, h.symm⟩

theorem toDotCase_ok_inv {s out : List Char} (h : toDotCase (.str s) = .ok out) :
    wordsB s ≠ [] ∧ out = List.intercalate ['.'] ((wordsB s).map lowerStr) := by
  rw [toDotCase_str] at h
  by_cases h0 : (jsTrim s).length = 0
  · rw [if_pos h0] at h
    simp at h
  · rw [if_neg h0] at h
    cases hw : wordsB s with
    | nil =>
      rw [hw] at h
      simp at h
    | cons w ws =>
      rw [hw] at h
      simp only [Except.ok.injEq] at h
      exact ⟨by simp, h.symm⟩

theorem toCamelCase_err_of_no_words {s : List Char} (h : wordsB s = []) :
    ∃ e, toCamelCase (.str s) = .error e := by
  rw [toCamelCase_str]
  by_cases h0 : (jsTrim s).length = 0
  · rw [if_pos h0]
    exact ⟨_, rfl⟩
  · rw [if_neg h0, h]
    exact ⟨_, rfl⟩

theorem toDotCase_err_of_no_words {s : List Char} (h : wordsB s = []) :
    ∃ e, toDotCase (.str s) = .error e := by
  rw [toDotCase_str]
  by_cases h0 : (jsTrim s).length = 0
  · rw [if_pos h0]
    exact ⟨_, rfl⟩
  · rw [if_neg h0, h]
    exact ⟨_, rfl⟩

theorem flatten_map_capWord (ws : List (List Char)) :
    (ws.map (fun t =>
      match t with
      | [] => ([] : List Char)
      | c :: cs => upperChar c :: cs.map lowerChar)).flatten = (ws.map capWord).flatten := by
  induction ws with
  | nil => rfl
  | cons t ts ih =>
    cases t <;> simp [capWord, ih, lowerStr]

theorem camelSpecRender_cons (w : List Char) (ws : List (List Char)) :
    camelSpecRender (w :: ws) = (lowerStr w :: ws.map capWord).flatten := by
  show List.map lowerChar w ++
      (List.map (fun t =>
        match t with
        | [] => ([] : List Char)
        | c :: cs => upperChar c :: List.map lowerChar cs) ws).flatten =
    (lowerStr w :: List.map capWord ws).flatten
  rw [flatten_map_capWord]
  simp [lowerStr]

/-! ## Claim theorems -/

/-- C1: for every string input that validates (trimmed input non-empty) and
tokenizes to a non-empty sequence of words, `camelCase` returns the first
token lowercased entirely followed by each subsequent token rendered as its
first character uppercased plus its remaining characters lowercased, all
concatenated with no separator (the spec-side rendering `camelSpecRender`);
in particular `camelCase("Hello World")` returns `"helloWorld"`. -/
theorem C1_camelCase_rendering (s : List Char)
    (hval : jsTrim s ≠ []) (htok : wordsB s ≠ []) :
    toCamelCase (.str s) = .ok (camelSpecRender (wordsB s)) ∧
      toCamelCase (.str ("Hello World".toList)) = .ok ("helloWorld".toList) := by
  constructor
  · rw [toCamelCase_str, if_neg (by simpa using hval)]
    cases hw : wordsB s with
    | nil => exact absurd hw htok
    | cons w ws =>
      rw [camelSpecRender_cons]
  · decide

/-- Witness for C1 at the concrete input `"Hello World"`. -/
theorem C1_camelCase_rendering_witness :
    toCamelCase (.str ("Hello World".toList)) =
      .ok (camelSpecRender (wordsB ("Hello World".toList))) :=
  (C1_camelCase_rendering ("Hello World".toList) (by decide) (by decide)).1

/-- C3: the claim says `kebabCase("HelloWorld")` returns `"hello-world"`;
the implementation lowercases before the camelCase-boundary pass, so it
actually returns `"helloworld"`.  The code's own example comment
(`refined_prompt.js` line 156) states the intended result `"hello-world"`,
so the code contradicts its own documentation here. -/
theorem C3_kebabCase_boundary_bug :
    toKebabCase (.str ("HelloWorld".toList)) = .ok ("helloworld".toList) ∧
      ("helloworld".toList : List Char) ≠ ("hello-world".toList : List Char) := by
  constructor <;> decide

/-- C7: `camelCase(42)` raises an error of kind `TypeKind` (a `TypeError`
with the wrong-type message), `camelCase("")` raises an error of kind
`EmptyInputKind` (an `Error` with the empty-input message), and the two
kinds are distinct. -/
theorem C7_camelCase_error_kinds :
    toCamelCase (.num 42) = .error ⟨.typeError, "Input must be a string"⟩ ∧
      kindOf ⟨.typeError, "Input must be a string"⟩ = .typeKind ∧
      toCamelCase (.str []) = .error ⟨.error, "Input string cannot be empty"⟩ ∧
      kindOf ⟨.error, "Input string cannot be empty"⟩ = .emptyInputKind ∧
      ErrKind.typeKind ≠ ErrKind.emptyInputKind := by
  refine ⟨rfl, by decide, rfl, by decide, by decide⟩

/-- C10: the two `toCamelCase` implementations are not extensionally equal.
At the input `"a.b"` the `refined_prompt.js` implementation splits on the
dot and returns `"aB"` while the unnamed-module implementation keeps the
dot and returns `"a.b"`. -/
theorem C10_camelCase_impls_diverge :
    toCamelCase (.str ("a.b".toList)) = .ok ("aB".toList) ∧
      toCamelCase2 ("a.b".toList) = "a.b".toList ∧
      ∃ s : List Char, toCamelCase (.str s) ≠ .ok (toCamelCase2 s) := by
  refine ⟨by decide, by decide, "a.b".toList, by decide⟩

/-- Counterexample to C5 as stated: `"a.b"` is a valid input (non-string
and emptiness checks pass), `kebabCase` succeeds on it returning `"a.b"`,
which is neither empty nor a match of `^[a-z0-9]+(-[a-z0-9]+)*$`. -/
theorem C5_counterexample :
    toKebabCase (.str ("a.b".toList)) = .ok ("a.b".toList) ∧
      ¬(matchesKebab ("a.b".toList) = true ∨ ("a.b".toList : List Char) = []) := by
  constructor <;> decide

/-- C6: the claim (restating spec §4.1: "they never return an empty
sequence — emptiness is always converted to an error") says zero-token
tokenization is always converted to an error, never an empty-string
return, for both cited `camelCase` implementations.  The
`refined_prompt.js` implementations honor this — at the separator-only
input `"___"` both raise the no-alphanumeric error — but the cited
unnamed-module `toCamelCase` (`src/unnamed/part_000` lines 17-28) has no
validation and returns the empty string with no error on `"___"` and on
`""`: the code contradicts the spec's stated contract at those inputs. -/
theorem C6_tokenizer_empty_bug :
    toCamelCase2 ("___".toList) = [] ∧
      toCamelCase2 [] = [] ∧
      toCamelCase (.str ("___".toList)) =
        .error ⟨.error, "Input string must contain at least one alphanumeric character"⟩ ∧
      toDotCase (.str ("___".toList)) =
        .error ⟨.error, "Input string must contain at least one alphanumeric character"⟩ := by
  refine ⟨by decide, by decide, by decide, by decide⟩

/-- C8: `kebabCase` rejects `null` and `undefined` explicitly with a
message distinct from the one raised for other non-string inputs (the
observable effect of the null/undefined check preceding the general type
check), rejects every other non-string input, and rejects
empty-or-whitespace-only strings. -/
theorem C8_kebabCase_validation :
    toKebabCase .null = .error ⟨.typeError, "Input must be a non-null string"⟩ ∧
      toKebabCase .undefined = .error ⟨.typeError, "Input must be a non-null string"⟩ ∧
      (∀ v : JSValue, (∀ s, v ≠ .str s) → v ≠ .null → v ≠ .undefined →
        toKebabCase v = .error ⟨.typeError, "Input must be a string"⟩) ∧
      ("Input must be a non-null string" : String) ≠ "Input must be a string" ∧
      (∀ s, jsTrim s = [] →
        toKebabCase (.str s) = .error ⟨.typeError, "Input cannot be empty or whitespace only"⟩) := by
  refine ⟨rfl, rfl, ?_, by decide, ?_⟩
  · intro v hs hn hu
    cases v with
    | str s => exact absurd rfl (hs s)
    | null => exact absurd rfl hn
    | undefined => exact absurd rfl hu
    | num n => rfl
    | bool b => rfl
    | object => rfl
  · intro s h
    rw [toKebabCase_str, if_pos (by simp [h])]

/-- Witness for C8: a number input gets the generic type error and a
whitespace-only string gets the emptiness error. -/
theorem C8_kebabCase_validation_witness :
    toKebabCase (.num 0) = .error ⟨.typeError, "Input must be a string"⟩ ∧
      toKebabCase (.str ("  ".toList)) =
        .error ⟨.typeError, "Input cannot be empty or whitespace only"⟩ :=
  ⟨C8_kebabCase_validation.2.2.1 (.num 0) (fun s => by simp) (by simp) (by simp),
    C8_kebabCase_validation.2.2.2.2 ("  ".toList) (by decide)⟩

theorem boundaryIns_eq_self {l : List Char} (h : ∀ c ∈ l, isUpperAlpha c = false) :
    boundaryIns l = l := by
  induction l using boundaryIns.induct with
  | case1 => rfl
  | case2 c => rfl
  | case3 a b rest hab ih =>
    rw [boundaryIns]
    rw [if_pos hab] at *
    have hb : isUpperAlpha b = false := h b (by simp)
    rcases Bool.and_eq_true_iff.mp hab with ⟨_, h2⟩
    rw [h2] at hb
    cases hb
  | case4 a b rest hab ih =>
    rw [boundaryIns, if_neg hab]
    rw [ih fun c hc => h c (List.mem_cons_of_mem a hc)]

/-- C4: in the kebab-case implementation, the camelCase-boundary
hyphenation pass is a no-op: for every string input on which `kebabCase`
succeeds, the result equals that of the same pipeline with the
boundary-insertion pass removed entirely (the pass runs after
`toLowerCase`, and a lowercased string contains no uppercase letter). -/
theorem C4_kebab_boundary_noop (s : List Char)
    (h : ∃ out, toKebabCase (.str s) = .ok out) :
    toKebabCase (.str s) = toKebabCaseNoBoundary (.str s) := by
  clear h
  rw [toKebabCase_str, toKebabCaseNoBoundary_str]
  by_cases h0 : (jsTrim s).length = 0
  · rw [if_pos h0, if_pos h0]
  · rw [if_neg h0, if_neg h0]
    unfold kebabPipeline
    rw [boundaryIns_eq_self lowerStr_no_upper]

/-- Witness for C4 at the concrete input `"a b"`. -/
theorem C4_kebab_boundary_noop_witness :
    toKebabCase (.str ("a b".toList)) = toKebabCaseNoBoundary (.str ("a b".toList)) :=
  C4_kebab_boundary_noop ("a b".toList) ⟨"a-b".toList, by decide⟩

theorem isAlnum_ne_dot {c : Char} (h : isAlnum c = true) : c ≠ '.' := by
  intro h2
  subst h2
  exact absurd h (by decide)

theorem intercalate_ne_nil {w : List Char} (rest : List (List Char)) (h : w ≠ []) :
    List.intercalate ['.'] (w :: rest) ≠ [] := by
  cases rest with
  | nil =>
    rw [intercalate_single]
    exact h
  | cons w2 rest2 =>
    rw [intercalate_pair]
    intro hcontra
    rcases List.append_eq_nil.mp hcontra with ⟨h1, _⟩
    rcases List.append_eq_nil.mp h1 with ⟨h2, _⟩
    exact h h2

theorem intercalate_no_edge_dot (ws : List (List Char))
    (h : ∀ w ∈ ws, w ≠ [] ∧ ∀ c ∈ w, isAlnum c = true) :
    (List.intercalate ['.'] ws).head? ≠ some '.' ∧
      (List.intercalate ['.'] ws).getLast? ≠ some '.' := by
  induction ws with
  | nil => simp [List.intercalate]
  | cons w rest ih =>
    rcases h w (List.mem_cons_self w rest) with ⟨hne, halnum⟩
    cases rest with
    | nil =>
      rw [intercalate_single]
      constructor
      · intro hc
        exact isAlnum_ne_dot (halnum '.' (List.mem_of_mem_head? (hc ▸ rfl : '.' ∈ w.head?))) rfl
      · intro hc
        exact isAlnum_ne_dot (halnum '.' (List.mem_of_mem_getLast? (hc ▸ rfl : '.' ∈ w.getLast?))) rfl
    | cons w2 rest2 =>
      have ih2 := ih fun w' hw' => h w' (List.mem_cons_of_mem w hw')
      rw [intercalate_pair]
      rcases List.exists_cons_of_ne_nil hne with ⟨a, w', rfl⟩
      have hX : List.intercalate ['.'] (w2 :: rest2) ≠ [] :=
        intercalate_ne_nil rest2 (h w2 (by simp)).1
      constructor
      · simp only [List.cons_append, List.head?_cons]
        intro hc
        have hc' : a = '.' := by simpa using hc
        exact isAlnum_ne_dot (halnum a (by simp)) hc'
      · rw [List.getLast?_append]
        cases hXL : (List.intercalate ['.'] (w2 :: rest2)).getLast? with
        | none => exact absurd (List.getLast?_eq_none_iff.mp hXL) hX
        | some d =>
          simp only [Option.or_some]
          intro hc
          have hd : d = '.' := by simpa using hc
          exact ih2.2 (hd ▸ hXL)

/-- C2: for every string input that validates and tokenizes to a non-empty
sequence of words, `dotCase` returns every token lowercased entirely joined
with a literal `.` separator (the spec-side rendering `dotSpecRender`), and
the result never has a leading or trailing dot; in particular
`dotCase("  hello  WORLD  ")` returns `"hello.world"`. -/
theorem C2_dotCase_rendering (s : List Char)
    (hval : jsTrim s ≠ []) (htok : wordsB s ≠ []) :
    toDotCase (.str s) = .ok (dotSpecRender (wordsB s)) ∧
      (∀ out, toDotCase (.str s) = .ok out →
        out.head? ≠ some '.' ∧ out.getLast? ≠ some '.') ∧
      toDotCase (.str ("  hello  WORLD  ".toList)) = .ok ("hello.world".toList) := by
  refine ⟨?_, ?_, by decide⟩
  · rw [toDotCase_str, if_neg (by simpa using hval)]
    cases hw : wordsB s with
    | nil => exact absurd hw htok
    | cons w ws => rfl
  · intro out h
    rcases toDotCase_ok_inv h with ⟨_, rfl⟩
    refine intercalate_no_edge_dot ((wordsB s).map lowerStr) ?_
    intro w' hw'
    rcases List.mem_map.mp hw' with ⟨w, hw, rfl⟩
    rcases wordsB_facts w hw with ⟨hne, halnum⟩
    constructor
    · simp only [lowerStr, ne_eq, List.map_eq_nil_iff]
      exact hne
    · intro c hc
      rcases List.mem_map.mp hc with ⟨d, hd, rfl⟩
      exact isAlnum_lowerChar (halnum d hd)

/-- Witness for C2 at the concrete input `"  hello  WORLD  "`. -/
theorem C2_dotCase_rendering_witness :
    toDotCase (.str ("  hello  WORLD  ".toList)) =
      .ok (dotSpecRender (wordsB ("  hello  WORLD  ".toList))) :=
  (C2_dotCase_rendering ("  hello  WORLD  ".toList) (by decide) (by decide)).1

theorem isAlnum_of_lowerAlnum {c : Char} (h : isLowerAlnum c = true) : isAlnum c = true := by
  rcases Bool.or_eq_true_iff.mp (by simpa [isLowerAlnum] using h) with h1 | h1 <;>
    simp [isAlnum, h1]

theorem isLowerAlnum_not_ws {c : Char} (h : isLowerAlnum c = true) : isWs c = false := by
  by_cases hw : isWs c = true
  · have h2 : c = ' ' ∨ c = '\t' ∨ c = '\n' ∨ c = '\r' ∨ c = '\x0b' ∨ c = '\x0c' := by
      simpa [isWs, or_assoc] using hw
    rcases h2 with rfl | rfl | rfl | rfl | rfl | rfl <;> exact absurd h (by decide)
  · simpa using hw

theorem mem_intercalate_dot {c : Char} :
    ∀ (ws : List (List Char)), c ∈ List.intercalate ['.'] ws →
      c = '.' ∨ ∃ w ∈ ws, c ∈ w := by
  intro ws
  induction ws with
  | nil => simp [List.intercalate]
  | cons w rest ih =>
    intro hc
    cases rest with
    | nil =>
      rw [intercalate_single] at hc
      exact Or.inr ⟨w, by simp, hc⟩
    | cons w2 rest2 =>
      rw [intercalate_pair] at hc
      rcases List.mem_append.mp hc with hc1 | hc2
      · rcases List.mem_append.mp hc1 with hc3 | hc4
        · exact Or.inr ⟨w, by simp, hc3⟩
        · simp at hc4
          exact Or.inl hc4
      · rcases ih hc2 with h1 | ⟨w', hw', hcw⟩
        · exact Or.inl h1
        · exact Or.inr ⟨w', List.mem_cons_of_mem w hw', hcw⟩

theorem lowerStr_eq_self_of_lowerAlnum {w : List Char}
    (h : ∀ c ∈ w, isLowerAlnum c = true) : lowerStr w = w := by
  unfold lowerStr
  rw [List.map_congr_left fun c hc => lowerChar_eq_self_of_lowerAlnum (h c hc)]
  exact List.map_id w

theorem wordsB_of_dot_shaped (ws : List (List Char)) (hne : ws ≠ [])
    (htok : ∀ w ∈ ws, w ≠ [] ∧ ∀ c ∈ w, isLowerAlnum c = true) :
    wordsB (List.intercalate ['.'] ws) = ws := by
  have hnows : ∀ c ∈ List.intercalate ['.'] ws, isWs c = false := by
    intro c hc
    rcases mem_intercalate_dot ws hc with rfl | ⟨w, hw, hcw⟩
    · decide
    · exact isLowerAlnum_not_ws ((htok w hw).2 c hcw)
  unfold wordsB
  rw [jsTrim_eq_self hnows]
  rw [jsSplit_intercalate (by decide) ws hne ?_]
  · rw [List.filter_eq_self.mpr ?_]
    intro w hw
    have := (htok w hw).1
    simpa using this
  · intro w hw
    refine ⟨(htok w hw).1, ?_⟩
    intro c hc
    have h2 := isAlnum_of_lowerAlnum ((htok w hw).2 c hc)
    simp [h2]

/-- C9: `dotCase` is idempotent on its own outputs: for every
already-dot-cased, lowercase, alphanumeric string (every string of the
form `token.token.....token` with non-empty lowercase-alphanumeric
tokens), applying `dotCase` returns the string unchanged, so
`dotCase(dotCase(x))` equals `dotCase(x)` because `.` is treated as a
separator on re-tokenization. -/
theorem C9_dotCase_idempotent (ws : List (List Char)) (hne : ws ≠ [])
    (htok : ∀ w ∈ ws, w ≠ [] ∧ ∀ c ∈ w, isLowerAlnum c = true) :
    toDotCase (.str (List.intercalate ['.'] ws)) = .ok (List.intercalate ['.'] ws) ∧
      ∀ y, toDotCase (.str (List.intercalate ['.'] ws)) = .ok y →
        toDotCase (.str y) = toDotCase (.str (List.intercalate ['.'] ws)) := by
  have hnows : ∀ c ∈ List.intercalate ['.'] ws, isWs c = false := by
    intro c hc
    rcases mem_intercalate_dot ws hc with rfl | ⟨w, hw, hcw⟩
    · decide
    · exact isLowerAlnum_not_ws ((htok w hw).2 c hcw)
  have hwords := wordsB_of_dot_shaped ws hne htok
  have hxne : List.intercalate ['.'] ws ≠ [] := by
    rcases List.exists_cons_of_ne_nil hne with ⟨w, rest, rfl⟩
    exact intercalate_ne_nil rest (htok w (by simp)).1
  have hmain : toDotCase (.str (List.intercalate ['.'] ws)) =
      .ok (List.intercalate ['.'] ws) := by
    rw [toDotCase_str, jsTrim_eq_self hnows,
      if_neg (by simpa using hxne)]
    rcases List.exists_cons_of_ne_nil hne with ⟨w, rest, hws⟩
    rw [hwords, hws]
    have hmap : (w :: rest).map lowerStr = w :: rest := by
      rw [← hws]
      rw [List.map_congr_left fun t ht => lowerStr_eq_self_of_lowerAlnum ((htok t ht).2)]
      exact List.map_id ws
    show Except.ok (List.intercalate ['.'] ((w :: rest).map lowerStr)) =
      Except.ok (List.intercalate ['.'] (w :: rest))
    rw [hmap]
  refine ⟨hmain, ?_⟩
  intro y hy
  rw [hmain] at hy
  have hxy : y = List.intercalate ['.'] ws := by
    simpa using hy.symm
  rw [hxy]

/-- Witness for C9 at the concrete token list `["a", "b"]`, whose
dot-cased form is `"a.b"`. -/
theorem C9_dotCase_idempotent_witness :
    toDotCase (.str (List.intercalate ['.'] [['a'], ['b']])) =
      .ok (List.intercalate ['.'] [['a'], ['b']]) :=
  (C9_dotCase_idempotent [['a'], ['b']] (by decide) (by decide)).1

/-! ## Lemmas for the kebab-case output shape -/

theorem replRuns_sep_true {p : Char → Bool} {rep c : Char} {cs : List Char}
    (h : p c = true) : replRuns p rep true (c :: cs) = replRuns p rep true cs := by
  simp [replRuns, h]

theorem replRuns_sep_false {p : Char → Bool} {rep c : Char} {cs : List Char}
    (h : p c = true) : replRuns p rep false (c :: cs) = rep :: replRuns p rep true cs := by
  simp [replRuns, h]

theorem replRuns_tok {p : Char → Bool} {rep c : Char} {cs : List Char} (b : Bool)
    (h : p c = false) : replRuns p rep b (c :: cs) = c :: replRuns p rep false cs := by
  cases b <;> simp [replRuns, h]

theorem mem_replRuns {p : Char → Bool} {rep : Char} :
    ∀ (l : List Char) (b : Bool) (c : Char), c ∈ replRuns p rep b l →
      c = rep ∨ (c ∈ l ∧ p c = false) := by
  intro l
  induction l with
  | nil =>
    intro b c hc
    simp [replRuns] at hc
  | cons d t ih =>
    intro b c hc
    by_cases hd : p d = true
    · cases b with
      | true =>
        rw [replRuns_sep_true hd] at hc
        rcases ih true c hc with h1 | ⟨h2, h3⟩
        · exact Or.inl h1
        · exact Or.inr ⟨List.mem_cons_of_mem d h2, h3⟩
      | false =>
        rw [replRuns_sep_false hd] at hc
        rcases List.mem_cons.mp hc with rfl | hc2
        · exact Or.inl rfl
        · rcases ih true c hc2 with h1 | ⟨h2, h3⟩
          · exact Or.inl h1
          · exact Or.inr ⟨List.mem_cons_of_mem d h2, h3⟩
    · have hd' : p d = false := by simpa using hd
      rw [replRuns_tok b hd'] at hc
      rcases List.mem_cons.mp hc with rfl | hc2
      · exact Or.inr ⟨List.mem_cons_self c t, hd'⟩
      · rcases ih false c hc2 with h1 | ⟨h2, h3⟩
        · exact Or.inl h1
        · exact Or.inr ⟨List.mem_cons_of_mem d h2, h3⟩

theorem hasDD_cons_eq (a : Char) (l : List Char) :
    hasDD (a :: l) =
      ((decide (a = '-') && decide (l.head? = some '-')) || hasDD l) := by
  cases l with
  | nil => simp [hasDD]
  | cons b t => simp [hasDD]

theorem collapse_noDD :
    ∀ (l : List Char) (b : Bool),
      hasDD (replRuns (fun c => c = '-') '-' b l) = false ∧
        (replRuns (fun c => c = '-') '-' true l).head? ≠ some '-' := by
  intro l
  induction l with
  | nil =>
    intro b
    constructor
    · cases b <;> simp [replRuns, hasDD]
    · simp [replRuns]
  | cons d t ih =>
    intro b
    by_cases hd : d = '-'
    · subst hd
      have hsep : (fun c => decide (c = '-')) '-' = true := by simp
      constructor
      · cases b with
        | true =>
          rw [replRuns_sep_true hsep]
          exact (ih true).1
        | false =>
          rw [replRuns_sep_false hsep, hasDD_cons_eq]
          have h1 := (ih true).1
          have h2 := (ih true).2
          simp only [Bool.or_eq_false_iff, Bool.and_eq_false_iff]
          refine ⟨Or.inr ?_, h1⟩
          simpa using h2
      · rw [replRuns_sep_true hsep]
        exact (ih true).2
    · have hd' : (fun c => decide (c = '-')) d = false := by simpa using hd
      constructor
      · rw [replRuns_tok b hd', hasDD_cons_eq]
        have h1 := (ih false).1
        simp only [Bool.or_eq_false_iff, Bool.and_eq_false_iff]
        exact ⟨Or.inl (by simpa using hd), h1⟩
      · rw [replRuns_tok true hd']
        simpa using hd

theorem hasDD_append_left : ∀ (l1 l2 : List Char),
    hasDD (l1 ++ l2) = false → hasDD l1 = false := by
  intro l1
  induction l1 using hasDD.induct with
  | case1 a b t ih =>
    intro l2 h
    rw [List.cons_append, List.cons_append] at h
    rw [hasDD] at h ⊢
    simp only [Bool.or_eq_false_iff] at h ⊢
    exact ⟨h.1, ih l2 h.2⟩
  | case2 l hl =>
    intro l2 h
    cases l with
    | nil => rfl
    | cons a t =>
      cases t with
      | nil => rfl
      | cons b t2 => exact absurd rfl (hl a b t2)

theorem hasDD_append_right : ∀ (l1 l2 : List Char),
    hasDD (l1 ++ l2) = false → hasDD l2 = false := by
  intro l1
  induction l1 with
  | nil =>
    intro l2 h
    simpa using h
  | cons a t ih =>
    intro l2 h
    refine ih l2 ?_
    rw [List.cons_append, hasDD_cons_eq] at h
    simp only [Bool.or_eq_false_iff] at h
    exact h.2

theorem stripEdgeHyphens_head {l : List Char} {c : Char}
    (h : (stripEdgeHyphens l).head? = some c) : c ≠ '-' := by
  unfold stripEdgeHyphens at h
  rcases rstrip_append (p := fun c => c = '-') (l.dropWhile fun c => c = '-') with ⟨t, ht⟩
  have h2 : (l.dropWhile fun c => c = '-').head? = some c := by
    rw [← ht, List.head?_append, h]
    rfl
  have h3 := List.head?_dropWhile_not (fun c => c = '-') l
  rw [h2] at h3
  simpa using h3

theorem stripEdgeHyphens_getLast {l : List Char} {c : Char}
    (h : (stripEdgeHyphens l).getLast? = some c) : c ≠ '-' := by
  have h2 := rstrip_getLast h
  simpa using h2

theorem stripEdgeHyphens_noDD {l : List Char} (h : hasDD l = false) :
    hasDD (stripEdgeHyphens l) = false := by
  unfold stripEdgeHyphens
  rcases (List.dropWhile_suffix (l := l) (fun c => c = '-')) with ⟨l1, hl1⟩
  have hdrop : hasDD (l.dropWhile fun c => c = '-') = false :=
    hasDD_append_right l1 _ (by rw [hl1]; exact h)
  rcases rstrip_append (p := fun c => c = '-') (l.dropWhile fun c => c = '-') with ⟨t, ht⟩
  exact hasDD_append_left _ t (by rw [ht]; exact hdrop)

theorem mem_stripEdgeHyphens {l : List Char} {c : Char}
    (h : c ∈ stripEdgeHyphens l) : c ∈ l := by
  have h2 : c ∈ l.dropWhile fun c => c = '-' := mem_rstrip h
  exact (List.dropWhile_suffix (fun c => c = '-')).subset h2

theorem shapeAux_tok {sep c : Char} {cs : List Char} (needTok : Bool)
    (h : isLowerAlnum c = true) :
    shapeAux sep needTok (c :: cs) = shapeAux sep false cs := by
  simp [shapeAux, h]

theorem shapeAux_dash {cs : List Char} :
    shapeAux '-' false ('-' :: cs) = shapeAux '-' true cs := by
  have h : isLowerAlnum '-' = false := by decide
  simp [shapeAux, h]

theorem kebabAux_of_invariants : ∀ l : List Char,
    (∀ c ∈ l, isLowerAlnum c = true ∨ c = '-') →
    hasDD l = false → l.getLast? ≠ some '-' →
    (shapeAux '-' false l = true ∧
      (l.head? ≠ some '-' → l ≠ [] → shapeAux '-' true l = true)) := by
  intro l
  induction l with
  | nil =>
    intro _ _ _
    exact ⟨rfl, fun _ hne => absurd rfl hne⟩
  | cons c t ih =>
    intro hchars hDD hlast
    have hchars_t : ∀ d ∈ t, isLowerAlnum d = true ∨ d = '-' :=
      fun d hd => hchars d (List.mem_cons_of_mem c hd)
    have hDD_parts : (decide (c = '-') && decide (t.head? = some '-')) = false ∧
        hasDD t = false := by
      rw [hasDD_cons_eq] at hDD
      exact Bool.or_eq_false_iff.mp hDD
    have hDD_t : hasDD t = false := hDD_parts.2
    have hfalse_t : shapeAux '-' false t = true := by
      cases ht : t with
      | nil => rfl
      | cons d t2 =>
        have hlast_t : t.getLast? ≠ some '-' := by
          rw [ht] at hlast ⊢
          rwa [List.getLast?_cons_cons] at hlast
        rw [← ht]
        exact (ih hchars_t hDD_t hlast_t).1
    constructor
    · rcases hchars c (List.mem_cons_self c t) with hc | rfl
      · rw [shapeAux_tok false hc]
        exact hfalse_t
      · rw [shapeAux_dash]
        have htne : t ≠ [] := by
          intro h2
          subst h2
          exact hlast rfl
        have hheadt : t.head? ≠ some '-' := by
          rcases Bool.and_eq_false_iff.mp hDD_parts.1 with h2 | h2
          · simp at h2
          · simpa using h2
        have hlast_t : t.getLast? ≠ some '-' := by
          rcases List.exists_cons_of_ne_nil htne with ⟨d, t2, rfl⟩
          rwa [List.getLast?_cons_cons] at hlast
        exact (ih hchars_t hDD_t hlast_t).2 hheadt htne
    · intro hhead _
      have hc : isLowerAlnum c = true := by
        rcases hchars c (List.mem_cons_self c t) with hc | rfl
        · exact hc
        · exact absurd rfl hhead
      rw [shapeAux_tok true hc]
      exact hfalse_t

/-- C5 (amended): the claim as stated fails (see the counterexample
`"a.b"`, where punctuation passes through the pipeline untouched).  For
every valid input consisting only of ASCII alphanumerics, whitespace,
underscores and hyphens — the separator classes the pipeline actually
handles — the output of `kebabCase` matches `^[a-z0-9]+(-[a-z0-9]+)*$`
or is the empty string. -/
theorem C5_kebab_shape_amended (s : List Char)
    (hchars : ∀ c ∈ s, isAlnum c = true ∨ isWsU c = true ∨ c = '-')
    (out : List Char) (h : toKebabCase (.str s) = .ok out) :
    matchesKebab out = true ∨ out = [] := by
  rw [toKebabCase_str] at h
  by_cases h0 : (jsTrim s).length = 0
  · rw [if_pos h0] at h
    simp at h
  · rw [if_neg h0] at h
    have hout : out = kebabPipeline s := by simpa using h.symm
    subst hout
    unfold kebabPipeline
    rw [boundaryIns_eq_self lowerStr_no_upper]
    have hchars0 : ∀ c ∈ lowerStr (jsTrim s),
        isLowerAlnum c = true ∨ isWsU c = true ∨ c = '-' := by
      intro c hc
      rcases List.mem_map.mp hc with ⟨d, hd, rfl⟩
      have hds : d ∈ s := mem_jsTrim hd
      rcases hchars d hds with h1 | h1 | rfl
      · exact Or.inl (isLowerAlnum_lowerChar h1)
      · rw [lowerChar_eq_self (isWsU_not_upper h1)]
        exact Or.inr (Or.inl h1)
      · rw [lowerChar_eq_self (by decide)]
        exact Or.inr (Or.inr rfl)
    have hchars1 : ∀ c ∈ replRuns isWsU '-' false (lowerStr (jsTrim s)),
        isLowerAlnum c = true ∨ c = '-' := by
      intro c hc
      rcases mem_replRuns _ false c hc with rfl | ⟨hmem, hnp⟩
      · exact Or.inr rfl
      · rcases hchars0 c hmem with h1 | h1 | rfl
        · exact Or.inl h1
        · rw [h1] at hnp
          cases hnp
        · exact Or.inr rfl
    set L1 := replRuns isWsU '-' false (lowerStr (jsTrim s)) with hL1
    set L2 := replRuns (fun c => c = '-') '-' false L1 with hL2
    have hchars2 : ∀ c ∈ L2, isLowerAlnum c = true ∨ c = '-' := by
      intro c hc
      rcases mem_replRuns L1 false c hc with rfl | ⟨hmem, _⟩
      · exact Or.inr rfl
      · exact hchars1 c hmem
    have hDD2 : hasDD L2 = false := (collapse_noDD L1 false).1
    have hcharsO : ∀ c ∈ stripEdgeHyphens L2, isLowerAlnum c = true ∨ c = '-' :=
      fun c hc => hchars2 c (mem_stripEdgeHyphens hc)
    have hDDO : hasDD (stripEdgeHyphens L2) = false := stripEdgeHyphens_noDD hDD2
    have hlastO : (stripEdgeHyphens L2).getLast? ≠ some '-' := by
      intro hc
      exact stripEdgeHyphens_getLast hc rfl
    cases hhd : (stripEdgeHyphens L2).head? with
    | none => exact Or.inr (List.head?_eq_none_iff.mp hhd)
    | some c =>
      left
      have hcne : c ≠ '-' := stripEdgeHyphens_head hhd
      have hne : stripEdgeHyphens L2 ≠ [] := by
        intro h2
        rw [h2] at hhd
        cases hhd
      show shapeAux '-' true (stripEdgeHyphens L2) = true
      refine (kebabAux_of_invariants _ hcharsO hDDO hlastO).2 ?_ hne
      rw [hhd]
      simpa using hcne

/-- Witness for the amended C5 at the concrete input `"hello world"`,
whose kebab-case output `"hello-world"` matches the shape regex. -/
theorem C5_kebab_shape_amended_witness :
    matchesKebab ("hello-world".toList) = true ∨ ("hello-world".toList : List Char) = [] :=
  C5_kebab_shape_amended ("hello world".toList) (by decide) ("hello-world".toList) (by decide)
